import Mathlib

/-!
# A verification model of the `gugle-event` publish/subscribe registry

This file gives a shallow embedding of `src/index.ts` (classes `Cancelable`,
`EventListener`, `EventManager`) and proves the documented properties of the
registry: the priority/cancelability ordering of listener buckets, the
cancellation protocol of `post`, parent cascading of `listen`, the framing of
the operations, and the behaviour of namespace removal.

Modelling conventions:
* JavaScript numbers used as priorities are modelled as `Int` (the spec fixes
  priorities to be integers).
* A callback value `(...args: any) => void` is opaque to the registry; the only
  effect of a callback that the registry itself observes is whether, when
  invoked, it calls `cancel()` on the token it received.  A callback is
  therefore modelled as an identity tag together with that observable
  behaviour, as a function of the argument list the callback was invoked with.
* A JS `Map` preserves key insertion order; it is modelled as an association
  list with `set` replacing in place and appending new keys at the end.
* `Array.prototype.sort(cmp)` is modelled as a stable sort (Mathlib's
  `List.insertionSort`) that keeps `a` before `b` whenever `cmp a b ≤ 0`.
  Caveat: `EventListener.compare` is not a consistent comparison function —
  for two equal-priority cancelable entries it returns `-1` in both
  directions — and for an inconsistent comparator ECMAScript makes the sort
  result implementation-defined.  The model therefore fixes one admissible
  resolution (registration order for such pairs, the one the spec wishes
  for); the actual runtime resolves it differently (see `sortPairV8`).
  Theorems below that concern the order of equal-priority cancelable entries
  hold only of this resolution and are not claimed of the program; the bucket
  properties stated in the claim theorems (permutation of the registrations,
  pairwise priority/cancelability precedence, registration order of
  equal-priority non-cancelable ties, prefix-of-bucket dispatch) are
  insensitive to how the inconsistent pairs are resolved.
* `EventManager.post` is `async` but awaits nothing and invokes the listeners
  synchronously in order; it is modelled as a pure function returning the
  sequence of listener invocations it performs (each invocation being the
  callback together with the exact argument list it was called with) and the
  settlement of the returned promise (`Except.ok` for fulfilment,
  `Except.error` for rejection).
-/

namespace GugleEvent

open scoped List

/-! ## `Cancelable` (src/index.ts lines 4-41) -/

/-- The cancellation token: an event name fixed at construction and a mutable
`canceled` flag starting `false`. -/
structure Cancelable where
  event : String
  canceled : Bool
deriving DecidableEq, Repr

/-- `new Cancelable(event)`. -/
def Cancelable.new (event : String) : Cancelable :=
  { event := event, canceled := false }

/-- `cancel()` sets the flag. -/
def Cancelable.cancel (c : Cancelable) : Cancelable :=
  { c with canceled := true }

/-- `isCanceled()` reads the flag. -/
def Cancelable.isCanceled (c : Cancelable) : Bool :=
  c.canceled

/-- `getEvent()` reads the event name. -/
def Cancelable.getEvent (c : Cancelable) : String :=
  c.event

/-! ## Argument values and callbacks -/

/-- A runtime value passed to a listener: either an opaque published payload
value or the cancellation token. -/
inductive Arg where
  | val (n : Nat)
  | token (c : Cancelable)
deriving DecidableEq, Repr

/-- An opaque callback function value.  `id` is its identity (two distinct
function objects have distinct tags); `wantsCancel args` tells whether the
callback, invoked with the argument list `args`, calls `cancel()` on the token
it received.  (A callback that was not handed the token cannot cancel.) -/
structure Callback where
  id : Nat
  wantsCancel : List Arg → Bool

/-! ## `EventListener` (src/index.ts lines 47-124) -/

/-- One registered listener entry: namespace tag (`ns` models the source field
`namespace`, a reserved word here), callback, priority and cancelable flag. -/
structure EventListener where
  ns : String
  callback : Callback
  priority : Int
  cancelable : Bool

/-- `getNamespace()`. -/
def EventListener.getNamespace (l : EventListener) : String :=
  l.ns

/-- `getPriority()`. -/
def EventListener.getPriority (l : EventListener) : Int :=
  l.priority

/-- `isCancelable()`. -/
def EventListener.isCancelable (l : EventListener) : Bool :=
  l.cancelable

/-- `EventListener.compare(a, b)`: equal priorities are tie-broken by the
cancelable flag (`a` cancelable comes first, else `b` cancelable comes last),
otherwise the result is the difference of priorities. -/
def EventListener.compare (a b : EventListener) : Int :=
  let priorityA := a.getPriority
  let priorityB := b.getPriority
  if priorityA = priorityB then
    if a.isCancelable then -1
    else if b.isCancelable then 1
    else priorityA - priorityB
  else priorityA - priorityB

/-- The "sorts no later than" relation induced by the comparator: a stable
sort keeps `a` before `b` exactly when `compare a b ≤ 0`. -/
def sortLE (a b : EventListener) : Prop :=
  EventListener.compare a b ≤ 0

instance : DecidableRel sortLE :=
  fun a b => inferInstanceAs (Decidable (EventListener.compare a b ≤ 0))

/-- Model of `listeners.sort(EventListener.compare)`: a stable sort with
respect to the comparator.  Where the comparator is consistent this is the
behaviour ECMAScript mandates; for the inconsistent pairs (equal priority,
both cancelable, where `compare` returns `-1` in both directions) the
standard leaves the order implementation-defined and this model fixes the
stable resolution, which keeps such pairs in registration order.  The actual
runtime does not (see `sortPairV8`), so no claim theorem relies on the order
this model gives those pairs. -/
def sortListeners (ls : List EventListener) : List EventListener :=
  List.insertionSort sortLE ls

/-- Model of what the actual runtime does to a two-element bucket in the
implementation-defined case: V8's TimSort begins by detecting an initial run,
and a two-element array `[a, b]` with `compare(b, a) < 0` is a descending run
and gets reversed.  For two equal-priority cancelable entries `compare`
returns `-1` in both directions, so the engine reverses them even though the
comparator also reported that `a` precedes `b`. -/
def sortPairV8 (a b : EventListener) : List EventListener :=
  if EventListener.compare b a < 0 then [b, a] else [a, b]

/-! ## The listener map (a JS `Map<string, EventListener[]>`) -/

/-- The bucket mapping, in key insertion order. -/
abbrev ListenerMap := List (String × List EventListener)

/-- `map.has(k)`. -/
def mapHas (m : ListenerMap) (k : String) : Bool :=
  m.any (fun p => p.1 == k)

/-- `map.get(k)` (`none` models `undefined`). -/
def mapGet (m : ListenerMap) (k : String) : Option (List EventListener) :=
  (m.find? (fun p => p.1 == k)).map (·.2)

/-- Replace the value stored at an existing key, keeping its position. -/
def mapSetInPlace : ListenerMap → String → List EventListener → ListenerMap
  | [], _, _ => []
  | p :: m, k, v => if p.1 == k then (k, v) :: m else p :: mapSetInPlace m k v

/-- `map.set(k, v)`: replaces in place if the key exists, else appends. -/
def mapSet (m : ListenerMap) (k : String) (v : List EventListener) : ListenerMap :=
  if mapHas m k then mapSetInPlace m k v
  else m ++ [(k, v)]

/-- `map.delete(k)`. -/
def mapDelete (m : ListenerMap) (k : String) : ListenerMap :=
  m.filter (fun p => p.1 != k)

/-! ## `EventManager` (src/index.ts lines 129-226) -/

/-- A registry: an optional parent and the bucket mapping.  `new
EventManager(parent)` starts with an empty mapping. -/
inductive EventManager where
  | mk (parent : Option EventManager) (eventListeners : ListenerMap)

/-- The `parent` field. -/
def EventManager.parent : EventManager → Option EventManager
  | .mk p _ => p

/-- The `eventListeners` field. -/
def EventManager.eventListeners : EventManager → ListenerMap
  | .mk _ els => els

/-- `listen(event, callback, namespace, priority, cancelable)`: ensure the
bucket exists, push the new entry, sort the bucket, and recurse into the
parent with the identical arguments. -/
def EventManager.listen : EventManager → String → Callback → String → Int → Bool → EventManager
  | .mk parent els, event, callback, ns, priority, cancelable =>
    let els₁ := if mapHas els event then els else mapSet els event []
    let els₂ :=
      match mapGet els₁ event with
      | some listeners =>
          mapSet els₁ event
            (sortListeners (listeners ++ [⟨ns, callback, priority, cancelable⟩]))
      | none => els₁
    .mk
      (match parent with
       | some p => some (p.listen event callback ns priority cancelable)
       | none => none)
      els₂

/-- `subscribe(event, namespace, priority, cancelable)` returns the closure
`callback => self.listen(event, callback, namespace, priority, cancelable)`. -/
def EventManager.subscribe (m : EventManager) (event ns : String) (priority : Int)
    (cancelable : Bool) : Callback → EventManager :=
  fun callback => m.listen event callback ns priority cancelable

/-- The argument list a listener is invoked with during `post`: the token is
prepended exactly for cancelable listeners. -/
def invokeArgs (tok : Cancelable) (args : List Arg) (l : EventListener) : List Arg :=
  if l.isCancelable then Arg.token tok :: args else args

/-- The dispatch loop of `post`: invoke each listener in bucket order (the
token prepended for cancelable ones), thread the token state, and after every
invocation reject with `'Event canceled!'` if the token is canceled.  Returns
the sequence of performed invocations and the settlement. -/
def postLoop (args : List Arg) :
    List EventListener → Cancelable → List (Callback × List Arg) × Except String (List Arg)
  | [], _ => ([], .ok args)
  | l :: rest, tok =>
    let called := invokeArgs tok args l
    let tok' :=
      if l.isCancelable && l.callback.wantsCancel called then tok.cancel else tok
    if tok'.isCanceled then ([(l.callback, called)], .error "Event canceled!")
    else
      let r := postLoop args rest tok'
      ((l.callback, called) :: r.1, r.2)

/-- `post(event, ...args)`: create one fresh token, look up the bucket (absent
bucket: no invocation, fulfil with `args`) and run the dispatch loop. -/
def EventManager.post (m : EventManager) (event : String) (args : List Arg) :
    List (Callback × List Arg) × Except String (List Arg) :=
  match mapGet m.eventListeners event with
  | some listeners => postLoop args listeners (Cancelable.new event)
  | none => ([], .ok args)

/-- The keys a JS `for..in` loop sees on a `Map` object: `for..in` iterates
the object's own enumerable string-keyed properties, and a `Map` stores its
entries in internal slots, not as properties, so the key list is empty. -/
def mapForInKeys (_ : ListenerMap) : List String :=
  []

/-- The body of the `remove` loop for one key: keep the entries of the bucket
whose namespace differs, re-store the bucket if non-empty, else delete it. -/
def removeKeyStep (ns : String) (els : ListenerMap) (key : String) : ListenerMap :=
  let kept := ((mapGet els key).getD []).filter (fun l => l.getNamespace != ns)
  if 0 < kept.length then mapSet els key kept else mapDelete els key

/-- `remove(namespace)`: iterate `for (let key in this.eventListeners)` over
the bucket map, rebuilding each visited bucket without the given namespace.
Because the loop is `for..in` over a `Map`, it visits no keys at all. -/
def EventManager.remove : EventManager → String → EventManager
  | .mk parent els, ns => .mk parent ((mapForInKeys els).foldl (removeKeyStep ns) els)

/-- Walk `k` steps up the parent chain. -/
def EventManager.nthAncestor : EventManager → Nat → Option EventManager
  | m, 0 => some m
  | .mk none _, _ + 1 => none
  | .mk (some p) _, k + 1 => p.nthAncestor k

/-! ## Derived notions used to state the claims -/

/-- Whether a listener, when reached by the dispatch loop of
`post event args`, cancels the token: it must be cancelable (otherwise it is
not handed the token) and its callback must call `cancel()` on the argument
list it receives. -/
def cancels (event : String) (args : List Arg) (l : EventListener) : Bool :=
  l.isCancelable && l.callback.wantsCancel (invokeArgs (Cancelable.new event) args l)

/-- The invocation record `post event args` produces for listener `l`. -/
def invocation (event : String) (args : List Arg) (l : EventListener) :
    Callback × List Arg :=
  (l.callback, invokeArgs (Cancelable.new event) args l)

/-- One `listen` call, as data. -/
structure ListenOp where
  event : String
  callback : Callback
  ns : String
  priority : Int
  cancelable : Bool

/-- Perform one recorded `listen` call. -/
def applyListen (m : EventManager) (o : ListenOp) : EventManager :=
  m.listen o.event o.callback o.ns o.priority o.cancelable

/-- Perform a sequence of recorded `listen` calls, oldest first. -/
def applyListens (m : EventManager) (ops : List ListenOp) : EventManager :=
  ops.foldl applyListen m

/-- The listener entry a recorded `listen` call registers. -/
def ListenOp.entry (o : ListenOp) : EventListener :=
  ⟨o.ns, o.callback, o.priority, o.cancelable⟩

/-- The registrations a sequence of `listen` calls makes for one event, in
registration order. -/
def regsFor (ops : List ListenOp) (event : String) : List EventListener :=
  (ops.filter (fun o => o.event == event)).map ListenOp.entry

/-- The bucket contents produced by registering `regs` in order into an
initially absent bucket: each step pushes the new entry and re-sorts. -/
def bucketAfter (regs : List EventListener) : List EventListener :=
  regs.foldl (fun b x => sortListeners (b ++ [x])) []

/-- Membership in one priority/cancelability tie class. -/
def sameClass (p : Int) (c : Bool) (l : EventListener) : Bool :=
  decide (l.getPriority = p) && (l.isCancelable == c)

/-- The bucket value (or absence) after registering `regs` into an optional
starting bucket, one push-and-sort step per registration. -/
def bucketOptAfter (b : Option (List EventListener)) (regs : List EventListener) :
    Option (List EventListener) :=
  regs.foldl (fun ob x => some (sortListeners (ob.getD [] ++ [x]))) b

/-! ### Concrete values used to instantiate the theorems -/

/-- A callback that never cancels. -/
def cbNever : Callback := ⟨0, fun _ => false⟩

/-- A callback that always cancels the token it receives. -/
def cbAlways : Callback := ⟨1, fun _ => true⟩

/-- Distinct non-canceling callbacks `A`, `B`, `C` of the spec's concrete
dispatch-order scenario. -/
def cbA : Callback := ⟨2, fun _ => false⟩

def cbB : Callback := ⟨3, fun _ => false⟩

def cbC : Callback := ⟨4, fun _ => false⟩

/-- The spec's scenario: register `A` (priority 50, non-cancelable), `B`
(priority 50, cancelable), `C` (priority 10, non-cancelable) on event `x`. -/
def opsSpec : List ListenOp :=
  [⟨"x", cbA, "n", 50, false⟩, ⟨"x", cbB, "n", 50, true⟩, ⟨"x", cbC, "n", 10, false⟩]

/-- The expected bucket for `opsSpec`: `C`, then `B`, then `A`. -/
def bucketSpec : List EventListener :=
  [⟨"n", cbC, 10, false⟩, ⟨"n", cbB, 50, true⟩, ⟨"n", cbA, 50, false⟩]

/-! ## The comparator induces a total preorder -/

theorem sortLE_iff {a b : EventListener} :
    sortLE a b ↔
      a.priority < b.priority ∨
        (a.priority = b.priority ∧ (a.cancelable = true ∨ b.cancelable = false)) := by
  unfold sortLE EventListener.compare EventListener.getPriority EventListener.isCancelable
  by_cases h : a.priority = b.priority
  · cases hca : a.cancelable <;> cases hcb : b.cancelable <;>
      simp [h, hca, hcb]
  · simp only [if_neg h]
    constructor
    · intro hle
      exact Or.inl (by omega)
    · rintro (hlt | ⟨heq, -⟩)
      · omega
      · exact absurd heq h

instance : IsTotal EventListener sortLE where
  total a b := by
    rw [sortLE_iff, sortLE_iff]
    by_cases h : a.priority = b.priority
    · cases hca : a.cancelable <;> cases hcb : b.cancelable <;> simp [h, hca, hcb]
    · rcases Int.lt_or_lt_of_ne h with hlt | hlt
      · exact Or.inl (Or.inl hlt)
      · exact Or.inr (Or.inl hlt)

instance : IsTrans EventListener sortLE where
  trans a b c hab hbc := by
    rw [sortLE_iff] at hab hbc ⊢
    rcases hab with hab | ⟨hab, hab'⟩ <;> rcases hbc with hbc | ⟨hbc, hbc'⟩
    · exact Or.inl (by omega)
    · exact Or.inl (by omega)
    · exact Or.inl (by omega)
    · refine Or.inr ⟨by omega, ?_⟩
      rcases hab' with h | h
      · exact Or.inl h
      · rcases hbc' with h' | h'
        · rw [h] at h'
          cases h'
        · exact Or.inr h'

theorem sortListeners_sorted (ls : List EventListener) :
    (sortListeners ls).Pairwise sortLE :=
  List.sorted_insertionSort sortLE ls

theorem sortListeners_perm (ls : List EventListener) : sortListeners ls ~ ls :=
  List.perm_insertionSort sortLE ls

theorem sortLE_of_sameClass {p : Int} {c : Bool} {a b : EventListener}
    (ha : sameClass p c a = true) (hb : sameClass p c b = true) : sortLE a b := by
  unfold sameClass EventListener.getPriority EventListener.isCancelable at ha hb
  simp only [Bool.and_eq_true, decide_eq_true_eq, beq_iff_eq] at ha hb
  rw [sortLE_iff]
  refine Or.inr ⟨ha.1.trans hb.1.symm, ?_⟩
  cases c
  · exact Or.inr hb.2
  · exact Or.inl ha.2

/-- Stability of the modelled sort: the entries of one priority/cancelability
tie class come out of the sort in the same relative order they went in. -/
theorem filter_sortListeners (p : Int) (c : Bool) (ls : List EventListener) :
    (sortListeners ls).filter (sameClass p c) = ls.filter (sameClass p c) := by
  have hsub : ls.filter (sameClass p c) <+ sortListeners ls := by
    apply List.sublist_insertionSort
    · exact List.pairwise_of_forall_mem_list fun a ha b hb =>
        sortLE_of_sameClass (List.of_mem_filter ha) (List.of_mem_filter hb)
    · exact List.filter_sublist ls
  have hsub2 : ls.filter (sameClass p c) <+ (sortListeners ls).filter (sameClass p c) := by
    have h2 := hsub.filter (sameClass p c)
    simpa only [List.filter_filter, Bool.and_self] using h2
  have hperm : (sortListeners ls).filter (sameClass p c) ~ ls.filter (sameClass p c) :=
    (sortListeners_perm ls).filter (sameClass p c)
  exact (hsub2.eq_of_length hperm.length_eq.symm).symm

/-! ## Lemmas about the map model -/

theorem mapGet_cons (p : String × List EventListener) (m : ListenerMap) (k : String) :
    mapGet (p :: m) k = if p.1 == k then some p.2 else mapGet m k := by
  unfold mapGet
  by_cases h : p.1 == k <;> simp [List.find?_cons, h]

theorem mapHas_cons (p : String × List EventListener) (m : ListenerMap) (k : String) :
    mapHas (p :: m) k = (p.1 == k || mapHas m k) := by
  simp [mapHas]

theorem mapHas_eq_isSome (m : ListenerMap) (k : String) :
    mapHas m k = (mapGet m k).isSome := by
  induction m with
  | nil => rfl
  | cons p m ih =>
    rw [mapHas_cons, mapGet_cons]
    by_cases h : p.1 == k <;> simp [h, ih]

theorem mapGet_setInPlace (k : String) (v : List EventListener) :
    ∀ m : ListenerMap, mapHas m k = true →
      mapGet (mapSetInPlace m k v) k = some v
  | [], h => by simp [mapHas] at h
  | p :: m, h => by
    cases hp : (p.1 == k)
    · rw [mapHas_cons, hp, Bool.false_or] at h
      have hpk : ¬ p.1 = k := by simpa using hp
      simp [mapSetInPlace, mapGet_cons, hp, hpk, mapGet_setInPlace k v m h]
    · have hpk : p.1 = k := by simpa using hp
      simp [mapSetInPlace, mapGet_cons, hpk]

theorem mapGet_append_single (k : String) (v : List EventListener) :
    ∀ m : ListenerMap, mapHas m k = false →
      mapGet (m ++ [(k, v)]) k = some v
  | [], _ => by simp [mapGet_cons]
  | p :: m, h => by
    rw [mapHas_cons] at h
    rcases Bool.or_eq_false_iff.mp h with ⟨hp, hm⟩
    rw [List.cons_append, mapGet_cons, hp]
    simp only [Bool.false_eq_true, if_false]
    exact mapGet_append_single k v m hm

theorem mapGet_mapSet_self (m : ListenerMap) (k : String) (v : List EventListener) :
    mapGet (mapSet m k v) k = some v := by
  unfold mapSet
  by_cases h : mapHas m k
  · rw [if_pos h]
    exact mapGet_setInPlace k v m h
  · rw [if_neg h]
    exact mapGet_append_single k v m (Bool.not_eq_true _ ▸ eq_false_of_ne_true h)

theorem mapGet_setInPlace_ne (k k' : String) (v : List EventListener) (hkk : k' ≠ k) :
    ∀ m : ListenerMap,
      mapGet (mapSetInPlace m k v) k' = mapGet m k'
  | [] => rfl
  | p :: m => by
    cases hp : (p.1 == k)
    · have hpk : ¬ p.1 = k := by simpa using hp
      simp [mapSetInPlace, mapGet_cons, hpk, mapGet_setInPlace_ne k k' v hkk m]
    · have hpk : p.1 = k := by simpa using hp
      have hk' : ¬ k = k' := fun hs => hkk hs.symm
      simp [mapSetInPlace, mapGet_cons, hpk, hk']

theorem mapGet_append_single_ne (k k' : String) (v : List EventListener) (hkk : k' ≠ k) :
    ∀ m : ListenerMap, mapGet (m ++ [(k, v)]) k' = mapGet m k'
  | [] => by
    rw [List.nil_append, mapGet_cons]
    simp [(Ne.symm hkk : k ≠ k')]
  | p :: m => by
    rw [List.cons_append, mapGet_cons, mapGet_cons]
    by_cases hp : p.1 == k'
    · simp [hp]
    · simp only [hp, Bool.false_eq_true, if_false]
      exact mapGet_append_single_ne k k' v hkk m

theorem mapGet_mapSet_ne (m : ListenerMap) (k k' : String) (v : List EventListener)
    (hkk : k' ≠ k) : mapGet (mapSet m k v) k' = mapGet m k' := by
  unfold mapSet
  by_cases h : mapHas m k
  · rw [if_pos h]
    exact mapGet_setInPlace_ne k k' v hkk m
  · rw [if_neg h]
    exact mapGet_append_single_ne k k' v hkk m

/-! ## Lemmas about `listen` -/

/-- Unfolding of `listen` on an explicit manager. -/
theorem listen_mk (parent : Option EventManager) (els : ListenerMap) (e : String)
    (cb : Callback) (ns : String) (pr : Int) (c : Bool) :
    (EventManager.mk parent els).listen e cb ns pr c =
      .mk (parent.map fun p => p.listen e cb ns pr c)
        (match mapGet (if mapHas els e then els else mapSet els e []) e with
         | some listeners =>
             mapSet (if mapHas els e then els else mapSet els e []) e
               (sortListeners (listeners ++ [⟨ns, cb, pr, c⟩]))
         | none => (if mapHas els e then els else mapSet els e [])) := by
  cases parent <;> rfl

/-- The effect of `listen` on its own manager's bucket for the listened
event: push the new entry at the end and sort. -/
theorem mapGet_listen_self (m : EventManager) (e : String) (cb : Callback) (ns : String)
    (pr : Int) (c : Bool) :
    mapGet (m.listen e cb ns pr c).eventListeners e =
      some (sortListeners (((mapGet m.eventListeners e).getD []) ++ [⟨ns, cb, pr, c⟩])) := by
  cases m with
  | mk parent els =>
    rw [listen_mk]
    by_cases h : mapHas els e
    · have hsome : (mapGet els e).isSome := by rw [← mapHas_eq_isSome, h]
      obtain ⟨ls, hls⟩ := Option.isSome_iff_exists.mp hsome
      simp [EventManager.eventListeners, h, hls, mapGet_mapSet_self]
    · have hnone : mapGet els e = none := by
        cases hg : mapGet els e
        · rfl
        · rw [mapHas_eq_isSome, hg] at h
          simp at h
      simp [EventManager.eventListeners, h, hnone, mapGet_mapSet_self]

/-- `listen` leaves every other bucket of its own manager untouched. -/
theorem mapGet_listen_ne (m : EventManager) (e : String) (cb : Callback) (ns : String)
    (pr : Int) (c : Bool) (e' : String) (hne : e' ≠ e) :
    mapGet (m.listen e cb ns pr c).eventListeners e' = mapGet m.eventListeners e' := by
  cases m with
  | mk parent els =>
    rw [listen_mk]
    by_cases h : mapHas els e
    · have hsome : (mapGet els e).isSome := by rw [← mapHas_eq_isSome, h]
      obtain ⟨ls, hls⟩ := Option.isSome_iff_exists.mp hsome
      simp [EventManager.eventListeners, h, hls, mapGet_mapSet_ne _ _ _ _ hne]
    · have hnone : mapGet els e = none := by
        cases hg : mapGet els e
        · rfl
        · rw [mapHas_eq_isSome, hg] at h
          simp at h
      simp [EventManager.eventListeners, h, hnone, mapGet_mapSet_self,
        mapGet_mapSet_ne _ _ _ _ hne]

/-- `listen` recurses into the parent with the identical arguments. -/
theorem parent_listen (m : EventManager) (e : String) (cb : Callback) (ns : String)
    (pr : Int) (c : Bool) :
    (m.listen e cb ns pr c).parent = m.parent.map (fun p => p.listen e cb ns pr c) := by
  cases m with
  | mk parent els => cases parent <;> simp [EventManager.listen, EventManager.parent]

/-- Cascading: walking `k` steps up after a `listen` finds the ancestor with
the identical `listen` applied to it. -/
theorem nthAncestor_listen :
    ∀ (m : EventManager) (k : Nat) (e : String) (cb : Callback) (ns : String)
      (pr : Int) (c : Bool),
      (m.listen e cb ns pr c).nthAncestor k =
        (m.nthAncestor k).map (fun a => a.listen e cb ns pr c)
  | .mk none _, 0, _, _, _, _, _ => rfl
  | .mk (some _) _, 0, _, _, _, _, _ => rfl
  | .mk none _, _ + 1, _, _, _, _, _ => rfl
  | .mk (some p) els, k + 1, e, cb, ns, pr, c => by
    rw [listen_mk]
    show (p.listen e cb ns pr c).nthAncestor k = _
    rw [nthAncestor_listen p k e cb ns pr c]
    rfl

/-! ## Lemmas about `post` -/

theorem post_eq_postLoop (m : EventManager) (event : String) (args : List Arg) :
    m.post event args =
      postLoop args ((mapGet m.eventListeners event).getD []) (Cancelable.new event) := by
  cases h : mapGet m.eventListeners event <;> simp [EventManager.post, h, postLoop]

theorem isCanceled_new (e : String) : (Cancelable.new e).isCanceled = false :=
  rfl

theorem isCanceled_cancel (c : Cancelable) : c.cancel.isCanceled = true :=
  rfl

theorem postLoop_no_cancel (event : String) (args : List Arg) :
    ∀ ls : List EventListener, (∀ l ∈ ls, cancels event args l = false) →
      postLoop args ls (Cancelable.new event) =
        (ls.map (invocation event args), Except.ok args)
  | [], _ => rfl
  | l :: rest, h => by
    have hl := h l (List.mem_cons_self l rest)
    unfold cancels at hl
    have hrest := postLoop_no_cancel event args rest
      (fun l' h' => h l' (List.mem_cons_of_mem _ h'))
    simp only [postLoop]
    rw [hl]
    simp [isCanceled_new, invocation, hrest]

theorem postLoop_cancel (event : String) (args : List Arg) :
    ∀ ls : List EventListener, (∃ l ∈ ls, cancels event args l = true) →
      postLoop args ls (Cancelable.new event) =
        ((ls.take (ls.findIdx (cancels event args) + 1)).map (invocation event args),
          Except.error "Event canceled!")
  | [], h => by simp at h
  | l :: rest, h => by
    cases hl : cancels event args l
    · have h' : ∃ x ∈ rest, cancels event args x = true := by
        rcases h with ⟨x, hx, hcx⟩
        cases hx with
        | head => rw [hl] at hcx; cases hcx
        | tail _ hx' => exact ⟨x, hx', hcx⟩
      have hlc := hl
      unfold cancels at hlc
      simp only [postLoop]
      rw [hlc]
      simp [isCanceled_new, List.findIdx_cons, hl, invocation,
        postLoop_cancel event args rest h']
    · have hlc := hl
      unfold cancels at hlc
      simp only [postLoop]
      rw [hlc]
      simp [isCanceled_cancel, List.findIdx_cons, hl, invocation]

theorem postLoop_result (args : List Arg) :
    ∀ (ls : List EventListener) (tok : Cancelable),
      (postLoop args ls tok).2 = Except.ok args ∨
        (postLoop args ls tok).2 = Except.error "Event canceled!"
  | [], _ => Or.inl rfl
  | l :: rest, tok => by
    simp only [postLoop]
    cases hcond : (l.isCancelable && l.callback.wantsCancel (invokeArgs tok args l))
    · cases htok : tok.isCanceled
      · simpa [htok] using postLoop_result args rest tok
      · simp [htok]
    · simp [isCanceled_cancel]

/-- Whatever happens, the dispatch performs the invocations of a prefix of
the bucket, in bucket order, each listener receiving the argument list
determined by its own cancelable flag. -/
theorem postLoop_trace_prefix (args : List Arg) :
    ∀ (ls : List EventListener) (tok : Cancelable), ∃ n,
      (postLoop args ls tok).1 =
        (ls.take n).map (fun l => (l.callback, invokeArgs tok args l))
  | [], _ => ⟨0, rfl⟩
  | l :: rest, tok => by
    simp only [postLoop]
    cases hcond : (l.isCancelable && l.callback.wantsCancel (invokeArgs tok args l))
    · cases htok : tok.isCanceled
      · obtain ⟨n, hn⟩ := postLoop_trace_prefix args rest tok
        exact ⟨n + 1, by simp [htok, hn]⟩
      · exact ⟨1, by simp [htok]⟩
    · exact ⟨1, by simp [isCanceled_cancel]⟩

/-! ## Buckets produced by sequences of `listen` calls -/

theorem pairwise_foldl_sort (regs : List EventListener) :
    ∀ b : List EventListener, b.Pairwise sortLE →
      (regs.foldl (fun b x => sortListeners (b ++ [x])) b).Pairwise sortLE := by
  induction regs with
  | nil => exact fun _ hb => hb
  | cons x regs ih =>
    intro b _
    simp only [List.foldl_cons]
    exact ih _ (sortListeners_sorted _)

/-- Every bucket built by repeated push-and-sort is sorted under `sortLE`. -/
theorem bucketAfter_sorted (regs : List EventListener) :
    (bucketAfter regs).Pairwise sortLE :=
  pairwise_foldl_sort regs [] List.Pairwise.nil

theorem filter_foldl_sort (p : Int) (c : Bool) (regs : List EventListener) :
    ∀ b : List EventListener,
      (regs.foldl (fun b x => sortListeners (b ++ [x])) b).filter (sameClass p c) =
        b.filter (sameClass p c) ++ regs.filter (sameClass p c) := by
  induction regs with
  | nil => simp
  | cons x regs ih =>
    intro b
    simp only [List.foldl_cons]
    rw [ih (sortListeners (b ++ [x])), filter_sortListeners, List.filter_append]
    cases hx : sameClass p c x <;> simp [List.filter_cons, hx]

/-- Stability across the whole history: each priority/cancelability tie class
comes out of the bucket in registration order (under the model; for the
cancelable classes this is the model's resolution of the inconsistent
comparator, so only the `c = false` instance is used by the claim
theorems). -/
theorem filter_bucketAfter (p : Int) (c : Bool) (regs : List EventListener) :
    (bucketAfter regs).filter (sameClass p c) = regs.filter (sameClass p c) := by
  simpa [bucketAfter] using filter_foldl_sort p c regs []

theorem perm_foldl_sort :
    ∀ (regs : List EventListener) (b : List EventListener),
      List.Perm (regs.foldl (fun b x => sortListeners (b ++ [x])) b) (b ++ regs)
  | [], b => by simp
  | x :: regs, b => by
    simp only [List.foldl_cons]
    have h1 := perm_foldl_sort regs (sortListeners (b ++ [x]))
    have h2 : List.Perm (sortListeners (b ++ [x]) ++ regs) ((b ++ [x]) ++ regs) :=
      (sortListeners_perm (b ++ [x])).append_right regs
    have h3 : (b ++ [x]) ++ regs = b ++ x :: regs := by simp
    exact h1.trans (h3 ▸ h2)

/-- A bucket holds exactly its registrations (whatever order the sort picks,
it permutes the array). -/
theorem perm_bucketAfter (regs : List EventListener) :
    List.Perm (bucketAfter regs) regs := by
  simpa using perm_foldl_sort regs []

theorem bucketOptAfter_some (regs : List EventListener) :
    ∀ b, bucketOptAfter (some b) regs =
      some (regs.foldl (fun b x => sortListeners (b ++ [x])) b) := by
  induction regs with
  | nil => intro b; rfl
  | cons x regs ih =>
    intro b
    simp only [bucketOptAfter, List.foldl_cons, Option.getD_some] at ih ⊢
    exact ih (sortListeners (b ++ [x]))

theorem bucketOptAfter_none (regs : List EventListener) :
    bucketOptAfter none regs =
      if regs.isEmpty then none else some (bucketAfter regs) := by
  cases regs with
  | nil => rfl
  | cons x regs =>
    show bucketOptAfter (some (sortListeners ((none : Option (List EventListener)).getD []
      ++ [x]))) regs = _
    rw [bucketOptAfter_some]
    simp [bucketAfter, List.isEmpty_cons]

theorem regsFor_cons (o : ListenOp) (ops : List ListenOp) (e : String) :
    regsFor (o :: ops) e =
      if o.event == e then o.entry :: regsFor ops e else regsFor ops e := by
  cases h : (o.event == e) <;> simp [regsFor, List.filter_cons, h]

/-- The bucket of any manager after a sequence of `listen` calls is obtained
by folding the push-and-sort step over the registrations for that event. -/
theorem mapGet_applyListens (e : String) :
    ∀ (ops : List ListenOp) (m : EventManager),
      mapGet (applyListens m ops).eventListeners e =
        bucketOptAfter (mapGet m.eventListeners e) (regsFor ops e)
  | [], m => by simp [applyListens, regsFor, bucketOptAfter]
  | o :: ops, m => by
    have step := mapGet_applyListens e ops (applyListen m o)
    have happ : applyListens m (o :: ops) = applyListens (applyListen m o) ops := rfl
    rw [happ, step, regsFor_cons]
    cases ho : (o.event == e)
    · have hne : e ≠ o.event := fun hs => by simp [hs] at ho
      rw [show (applyListen m o).eventListeners = (m.listen o.event o.callback o.ns
          o.priority o.cancelable).eventListeners from rfl,
        mapGet_listen_ne m o.event o.callback o.ns o.priority o.cancelable e hne]
      simp [ho]
    · have heq : o.event = e := by simpa using ho
      subst heq
      rw [show (applyListen m o).eventListeners = (m.listen o.event o.callback o.ns
          o.priority o.cancelable).eventListeners from rfl,
        mapGet_listen_self, if_pos (show (true : Bool) = true from rfl)]
      rfl

/-- Specialisation to a freshly constructed manager: the bucket for an event
exists iff some `listen` named the event, and then holds `bucketAfter` of the
registrations in order. -/
theorem mapGet_applyListens_fresh (parent : Option EventManager) (ops : List ListenOp)
    (e : String) :
    mapGet (applyListens (EventManager.mk parent []) ops).eventListeners e =
      if (regsFor ops e).isEmpty then none else some (bucketAfter (regsFor ops e)) := by
  rw [mapGet_applyListens, show mapGet (EventManager.mk parent []).eventListeners e =
    none from rfl, bucketOptAfter_none]

/-! ## `remove` is a no-op (the `for..in` bug) -/

/-- `remove` never executes its loop body: `for..in` over a `Map` yields no
keys, so the manager is returned unchanged — no entry is removed from any
bucket, of this manager or of any ancestor. -/
theorem remove_eq_self (m : EventManager) (ns : String) : m.remove ns = m := by
  cases m with
  | mk parent els => rfl

/-- The order induced by the comparator implies the documented precedence
relation: strictly smaller priority, or a cancelability win at equal
priority, or a full tie. -/
theorem sortLE_imp_precede {a b : EventListener} (h : sortLE a b) :
    a.priority < b.priority ∨
      (a.priority = b.priority ∧
        ((a.cancelable = true ∧ b.cancelable = false) ∨ a.cancelable = b.cancelable)) := by
  rw [sortLE_iff] at h
  rcases h with h | ⟨heq, hc⟩
  · exact Or.inl h
  · refine Or.inr ⟨heq, ?_⟩
    cases hca : a.cancelable <;> cases hcb : b.cancelable
    · exact Or.inr rfl
    · rcases hc with h | h
      · rw [h] at hca
        exact absurd hca (by decide)
      · rw [h] at hcb
        exact absurd hcb (by decide)
    · exact Or.inl ⟨rfl, rfl⟩
    · exact Or.inr rfl

/-! ## The claims -/

/-- C1 counterexample: for two equal-priority cancelable entries the source
comparator reports "must precede" in both directions, so it is not a
consistent comparison function and the order `Array.prototype.sort` stores
them in is implementation-defined; the actual runtime (V8 treats such a pair
as a descending run and reverses it) stores them in reverse registration
order — refuting the claim's "entries fully tied (equal priority, equal
cancelability) keep their registration (insertion) order". -/
theorem bucket_order_counterexample :
    EventListener.compare ⟨"n1", cbA, 100, true⟩ ⟨"n2", cbB, 100, true⟩ = -1 ∧
    EventListener.compare ⟨"n2", cbB, 100, true⟩ ⟨"n1", cbA, 100, true⟩ = -1 ∧
    (sortPairV8 ⟨"n1", cbA, 100, true⟩ ⟨"n2", cbB, 100, true⟩).map
        EventListener.getNamespace = ["n2", "n1"] ∧
    (["n2", "n1"] : List String) ≠ ["n1", "n2"] :=
  ⟨rfl, rfl, rfl, by decide⟩

/-- C1 (amended): every bucket reachable by any sequence of `listen` calls
holds exactly the registrations for its event; any two stored entries `a`
before `b` satisfy the documented precedence relation (strictly smaller
priority first, cancelable before non-cancelable at equal priority,
everything else a full tie); entries tied at equal priority with both
non-cancelable keep registration order (for them the comparator returns `0`,
where stability is guaranteed); the order among equal-priority cancelable
entries is implementation-defined (the comparator reports `-1` both ways) and
is not part of the claim; and `post` performs its invocations in exactly the
stored order (a prefix of the bucket), so distinct priorities fire in
ascending order.  (Cascaded registrations on an ancestor are `listen` calls
with identical arguments on that ancestor, so buckets of every manager in a
hierarchy are of this form.) -/
theorem bucket_order_invariant (parent : Option EventManager) (ops : List ListenOp)
    (event : String) (ls : List EventListener) (args : List Arg)
    (hb : mapGet (applyListens (EventManager.mk parent []) ops).eventListeners event
      = some ls) :
    List.Perm ls (regsFor ops event) ∧
    ls.Pairwise (fun a b =>
      a.priority < b.priority ∨
        (a.priority = b.priority ∧
          ((a.cancelable = true ∧ b.cancelable = false) ∨ a.cancelable = b.cancelable))) ∧
    (∀ p, ls.filter (sameClass p false) = (regsFor ops event).filter (sameClass p false)) ∧
    (∃ n, ((applyListens (EventManager.mk parent []) ops).post event args).1 =
      (ls.take n).map (invocation event args)) := by
  have hfresh := mapGet_applyListens_fresh parent ops event
  rw [hb] at hfresh
  have hls : ls = bucketAfter (regsFor ops event) := by
    by_cases he : (regsFor ops event).isEmpty
    · rw [if_pos he] at hfresh
      cases hfresh
    · rw [if_neg he] at hfresh
      exact Option.some_inj.mp hfresh
  refine ⟨?_, ?_, ?_, ?_⟩
  · rw [hls]
    exact perm_bucketAfter _
  · rw [hls]
    exact (bucketAfter_sorted _).imp (fun hab => sortLE_imp_precede hab)
  · intro p
    rw [hls]
    exact filter_bucketAfter p false _
  · rw [post_eq_postLoop, hb]
    obtain ⟨n, hn⟩ := postLoop_trace_prefix args ls (Cancelable.new event)
    refine ⟨n, ?_⟩
    rw [show ((some ls).getD ([] : List EventListener)) = ls from rfl, hn]
    exact List.map_congr_left (fun l _ => rfl)

/-- C1 witness: the spec's concrete scenario (`A` prio 50 non-cancelable,
`B` prio 50 cancelable, `C` prio 10 non-cancelable, all on `"x"`) produces
the bucket `C, B, A` with all the invariants. -/
theorem bucket_order_invariant_witness :
    List.Perm bucketSpec (regsFor opsSpec "x") ∧
    bucketSpec.Pairwise (fun a b =>
      a.priority < b.priority ∨
        (a.priority = b.priority ∧
          ((a.cancelable = true ∧ b.cancelable = false) ∨ a.cancelable = b.cancelable))) ∧
    (∀ p, bucketSpec.filter (sameClass p false) = (regsFor opsSpec "x").filter
      (sameClass p false)) ∧
    (∃ n, ((applyListens (EventManager.mk none []) opsSpec).post "x" [Arg.val 7]).1 =
      (bucketSpec.take n).map (invocation "x" [Arg.val 7])) :=
  bucket_order_invariant none opsSpec "x" bucketSpec [Arg.val 7] rfl

/-- C2 counterexample to "the failure identifies the event name": the
rejection value is the constant string `'Event canceled!'`, the same for two
different event names, so it cannot identify the event. -/
theorem post_cancel_error_counterexample :
    (((EventManager.mk none []).listen "alpha" cbAlways "n" 100 true).post "alpha" []).2 =
        Except.error "Event canceled!" ∧
    (((EventManager.mk none []).listen "beta" cbAlways "n" 100 true).post "beta" []).2 =
        Except.error "Event canceled!" ∧
    ("alpha" : String) ≠ "beta" :=
  ⟨rfl, rfl, by decide⟩

/-- C2 (amended): if a cancelable listener cancels the per-call token, no
listener after the first canceling one in bucket order is invoked and the
call rejects with the constant string `'Event canceled!'` (which does not
carry the event name); this rejection is the only failure path. -/
theorem post_cancel_stops_dispatch (m : EventManager) (event : String) (args : List Arg)
    (ls : List EventListener) (hb : mapGet m.eventListeners event = some ls) :
    ((m.post event args).2 = Except.error "Event canceled!" ↔
      ∃ l ∈ ls, cancels event args l = true) ∧
    ((∃ l ∈ ls, cancels event args l = true) →
      (m.post event args).1 =
        (ls.take (ls.findIdx (cancels event args) + 1)).map (invocation event args)) ∧
    (∀ msg, (m.post event args).2 = Except.error msg → msg = "Event canceled!") := by
  have hpost : m.post event args = postLoop args ls (Cancelable.new event) := by
    rw [post_eq_postLoop, hb]
    rfl
  refine ⟨⟨?_, ?_⟩, ?_, ?_⟩
  · intro herr
    by_contra hno
    push_neg at hno
    have h' : ∀ l ∈ ls, cancels event args l = false := fun l hl =>
      Bool.eq_false_iff.mpr (hno l hl)
    rw [hpost, postLoop_no_cancel event args ls h'] at herr
    cases herr
  · intro hex
    rw [hpost, postLoop_cancel event args ls hex]
  · intro hex
    rw [hpost, postLoop_cancel event args ls hex]
  · intro msg hmsg
    rw [hpost] at hmsg
    rcases postLoop_result args ls (Cancelable.new event) with hok | herr
    · rw [hok] at hmsg
      cases hmsg
    · rw [herr] at hmsg
      injection hmsg with h
      exact h.symm

/-- C2 witness: one always-canceling cancelable listener on `"e"`. -/
theorem post_cancel_stops_dispatch_witness :
    ((((EventManager.mk none []).listen "e" cbAlways "n" 100 true).post "e" []).2 =
        Except.error "Event canceled!" ↔
      ∃ l ∈ [(⟨"n", cbAlways, 100, true⟩ : EventListener)], cancels "e" [] l = true) ∧
    ((∃ l ∈ [(⟨"n", cbAlways, 100, true⟩ : EventListener)], cancels "e" [] l = true) →
      ((((EventManager.mk none []).listen "e" cbAlways "n" 100 true).post "e" []).1 =
        ([(⟨"n", cbAlways, 100, true⟩ : EventListener)].take
          ([(⟨"n", cbAlways, 100, true⟩ : EventListener)].findIdx (cancels "e" []) + 1)).map
          (invocation "e" []))) ∧
    (∀ msg, ((((EventManager.mk none []).listen "e" cbAlways "n" 100 true).post "e"
        []).2 = Except.error msg) → msg = "Event canceled!") :=
  post_cancel_stops_dispatch ((EventManager.mk none []).listen "e" cbAlways "n" 100 true)
    "e" [] [⟨"n", cbAlways, 100, true⟩] rfl

/-- C3: the claim describes what `remove` is documented to do, but the code's
`for..in` loop over the `Map` iterates no keys, so `remove` removes nothing:
after registering a listener under namespace `"n1"` and calling
`remove("n1")`, the listener is still registered and its bucket still
present. -/
theorem remove_removes_nothing :
    (∀ (m : EventManager) (ns : String), m.remove ns = m) ∧
    mapGet ((((EventManager.mk none []).listen "e" cbNever "n1" 100 false).remove
        "n1")).eventListeners "e" = some [⟨"n1", cbNever, 100, false⟩] :=
  ⟨remove_eq_self, rfl⟩

/-- C4: every invocation `post` performs calls the listener's callback with
the fresh token prepended when the listener is cancelable, and with exactly
the published arguments otherwise. -/
theorem post_args_shape (m : EventManager) (event : String) (args : List Arg)
    (entry : Callback × List Arg) (he : entry ∈ (m.post event args).1) :
    ∃ l ∈ (mapGet m.eventListeners event).getD [],
      entry = (l.callback,
        if l.isCancelable then Arg.token (Cancelable.new event) :: args else args) := by
  rw [post_eq_postLoop] at he
  obtain ⟨n, hn⟩ := postLoop_trace_prefix args ((mapGet m.eventListeners event).getD [])
    (Cancelable.new event)
  rw [hn] at he
  obtain ⟨l, hl, hle⟩ := List.mem_map.mp he
  exact ⟨l, List.mem_of_mem_take hl, hle.symm⟩

/-- C4 witness: a cancelable (non-canceling) listener receives the token
followed by the published argument. -/
theorem post_args_shape_witness :
    ∃ l ∈ (mapGet ((EventManager.mk none []).listen "e" cbNever "n" 50 true).eventListeners
        "e").getD [],
      ((cbNever, [Arg.token (Cancelable.new "e"), Arg.val 3]) : Callback × List Arg) =
        (l.callback,
          if l.isCancelable then Arg.token (Cancelable.new "e") :: [Arg.val 3]
          else [Arg.val 3]) :=
  post_args_shape ((EventManager.mk none []).listen "e" cbNever "n" 50 true) "e"
    [Arg.val 3] (cbNever, [Arg.token (Cancelable.new "e"), Arg.val 3])
    (List.mem_cons_self _ _)

/-- C5: when no invoked listener cancels — in particular when no bucket
exists for the event, in which case nothing is invoked — `post` succeeds and
returns exactly its argument list, having invoked every bucket entry once in
order. -/
theorem post_ok_returns_args (m : EventManager) (event : String) (args : List Arg)
    (h : ∀ l ∈ (mapGet m.eventListeners event).getD [], cancels event args l = false) :
    m.post event args =
      (((mapGet m.eventListeners event).getD []).map (invocation event args),
        Except.ok args) := by
  rw [post_eq_postLoop]
  exact postLoop_no_cancel event args _ h

/-- C5 witness: the spec's concrete scenario
`post("unregistered-event", 1, 2)` succeeds with `[1, 2]` and invokes
nothing. -/
theorem post_ok_returns_args_witness :
    (EventManager.mk none []).post "unregistered-event" [Arg.val 1, Arg.val 2] =
      ([], Except.ok [Arg.val 1, Arg.val 2]) := by
  have h := post_ok_returns_args (EventManager.mk none []) "unregistered-event"
    [Arg.val 1, Arg.val 2] (fun l hl => absurd hl (List.not_mem_nil l))
  simpa using h

/-- C6: `listen` performs the identical registration on every ancestor
(walking `k` steps up after the call finds the ancestor with the same
`listen` applied), the registered entry is present in each ancestor's bucket
for the event, and an ancestor's `post` of that event invokes the listener's
callback (here stated when no listener cancels the dispatch first). -/
theorem listen_registers_on_ancestors (m : EventManager) (k : Nat) (e : String)
    (cb : Callback) (ns : String) (prio : Int) (c : Bool) :
    ((m.listen e cb ns prio c).nthAncestor k =
      (m.nthAncestor k).map (fun a => a.listen e cb ns prio c)) ∧
    (∀ a, m.nthAncestor k = some a →
      ∃ ls, mapGet (a.listen e cb ns prio c).eventListeners e = some ls ∧
        (⟨ns, cb, prio, c⟩ : EventListener) ∈ ls) ∧
    (∀ a args, m.nthAncestor k = some a →
      (∀ l ∈ (mapGet (a.listen e cb ns prio c).eventListeners e).getD [],
        cancels e args l = false) →
      (cb, invokeArgs (Cancelable.new e) args ⟨ns, cb, prio, c⟩) ∈
        ((a.listen e cb ns prio c).post e args).1) := by
  refine ⟨nthAncestor_listen m k e cb ns prio c, ?_, ?_⟩
  · intro a _
    refine ⟨sortListeners (((mapGet a.eventListeners e).getD []) ++ [⟨ns, cb, prio, c⟩]),
      mapGet_listen_self a e cb ns prio c, ?_⟩
    simp [sortListeners]
  · intro a args _ hno
    have hself := mapGet_listen_self a e cb ns prio c
    rw [post_eq_postLoop, hself]
    rw [hself] at hno
    rw [postLoop_no_cancel e args _ hno]
    exact List.mem_map.mpr ⟨⟨ns, cb, prio, c⟩, by simp [sortListeners], rfl⟩

/-- C6 witness: a listener registered on a child of a fresh parent is present
in the parent's bucket and invoked by the parent's `post`. -/
theorem listen_registers_on_ancestors_witness :
    (∃ ls, mapGet ((EventManager.mk none []).listen "e" cbA "n" 100 false).eventListeners
        "e" = some ls ∧ (⟨"n", cbA, 100, false⟩ : EventListener) ∈ ls) ∧
    ((cbA, invokeArgs (Cancelable.new "e") [] ⟨"n", cbA, 100, false⟩) ∈
      (((EventManager.mk none []).listen "e" cbA "n" 100 false).post "e" []).1) :=
  ⟨(listen_registers_on_ancestors (EventManager.mk (some (EventManager.mk none [])) []) 1
      "e" cbA "n" 100 false).2.1 (EventManager.mk none []) rfl,
   (listen_registers_on_ancestors (EventManager.mk (some (EventManager.mk none [])) []) 1
      "e" cbA "n" 100 false).2.2 (EventManager.mk none []) [] rfl (fun l hl => by
        have hl' : l ∈ [(⟨"n", cbA, 100, false⟩ : EventListener)] := hl
        rw [List.eq_of_mem_singleton hl']
        rfl)⟩

/-- C7: `remove` on a child leaves the parent object — and hence the parent's
entire listener mapping, including entries cascaded up by the child's
registrations — completely unchanged. -/
theorem remove_does_not_cascade (m : EventManager) (rns : String) (p : EventManager)
    (hp : m.parent = some p) :
    ∃ q, (m.remove rns).parent = some q ∧ q.eventListeners = p.eventListeners :=
  ⟨p, by rw [remove_eq_self]; exact hp, rfl⟩

/-- C7 witness: after a child of a fresh parent registers a listener (which
cascades up), removing the namespace on the child leaves the parent's mapping
as it was. -/
theorem remove_does_not_cascade_witness :
    ∃ q, (((EventManager.mk (some (EventManager.mk none [])) []).listen "e" cbB "n" 100
          false).remove "n").parent = some q ∧
      q.eventListeners =
        ((EventManager.mk none []).listen "e" cbB "n" 100 false).eventListeners :=
  remove_does_not_cascade
    ((EventManager.mk (some (EventManager.mk none [])) []).listen "e" cbB "n" 100 false)
    "n" ((EventManager.mk none []).listen "e" cbB "n" 100 false) rfl

/-- C8: calling the closure returned by `subscribe` with a callback is the
same registration as calling `listen` directly: the resulting registry state
(ancestors included) is identical. -/
theorem subscribe_equals_listen (m : EventManager) (event ns : String) (prio : Int)
    (c : Bool) (cb : Callback) :
    m.subscribe event ns prio c cb = m.listen event cb ns prio c :=
  rfl

/-- C9: `listen` modifies, in each registry of the ancestor chain, only the
bucket keyed by its event: looked up at any other key, every registry of the
chain (presence and exact contents) is unchanged. -/
theorem listen_touches_only_its_event (m : EventManager) (k : Nat) (e : String)
    (cb : Callback) (ns : String) (prio : Int) (c : Bool) (e' : String) (hne : e' ≠ e) :
    ((m.listen e cb ns prio c).nthAncestor k).map (fun a => mapGet a.eventListeners e') =
      (m.nthAncestor k).map (fun a => mapGet a.eventListeners e') := by
  rw [nthAncestor_listen]
  cases h : m.nthAncestor k
  · rfl
  · simp [mapGet_listen_ne _ e cb ns prio c e' hne]

/-- C9 witness: a `listen` on `"e"` leaves the bucket for `"other"`
unchanged. -/
theorem listen_touches_only_its_event_witness :
    ((((EventManager.mk none []).listen "other" cbC "n" 100 false).listen "e" cbC "n" 100
        false).nthAncestor 0).map (fun a => mapGet a.eventListeners "other") =
      (((EventManager.mk none []).listen "other" cbC "n" 100 false).nthAncestor 0).map
        (fun a => mapGet a.eventListeners "other") :=
  listen_touches_only_its_event
    ((EventManager.mk none []).listen "other" cbC "n" 100 false) 0 "e" cbC "n" 100 false
    "other" (by decide)

/-- C10: every invocation of a cancelable listener during `post event args`
receives a token carrying exactly the posted event name and not yet canceled,
prepended to the published arguments. -/
theorem post_token_is_fresh_for_event (m : EventManager) (event : String)
    (args : List Arg) (entry : Callback × List Arg)
    (he : entry ∈ (m.post event args).1) :
    ∃ l ∈ (mapGet m.eventListeners event).getD [],
      entry.1 = l.callback ∧
      (l.isCancelable = true →
        ∃ t : Cancelable, entry.2 = Arg.token t :: args ∧ t.getEvent = event ∧
          t.isCanceled = false) := by
  rw [post_eq_postLoop] at he
  obtain ⟨n, hn⟩ := postLoop_trace_prefix args ((mapGet m.eventListeners event).getD [])
    (Cancelable.new event)
  rw [hn] at he
  obtain ⟨l, hl, hle⟩ := List.mem_map.mp he
  refine ⟨l, List.mem_of_mem_take hl, ?_, ?_⟩
  · rw [← hle]
  · intro hc
    refine ⟨Cancelable.new event, ?_, rfl, rfl⟩
    rw [← hle]
    simp [invokeArgs, hc]

/-- C10 witness: a cancelable listener on `"ev"` receives the fresh token for
`"ev"`. -/
theorem post_token_is_fresh_for_event_witness :
    ∃ l ∈ (mapGet ((EventManager.mk none []).listen "ev" cbNever "n" 10
        true).eventListeners "ev").getD [],
      ((cbNever, [Arg.token (Cancelable.new "ev"), Arg.val 9]) : Callback × List Arg).1 =
          l.callback ∧
      (l.isCancelable = true →
        ∃ t : Cancelable,
          ((cbNever, [Arg.token (Cancelable.new "ev"), Arg.val 9]) :
            Callback × List Arg).2 = Arg.token t :: [Arg.val 9] ∧
          t.getEvent = "ev" ∧ t.isCanceled = false) :=
  post_token_is_fresh_for_event ((EventManager.mk none []).listen "ev" cbNever "n" 10 true)
    "ev" [Arg.val 9] (cbNever, [Arg.token (Cancelable.new "ev"), Arg.val 9])
    (List.mem_cons_self _ _)

end GugleEvent
